import Mathlib

/-!
Verification of the twitterbot scheduling and rate-budget core.

Times are modelled as exact rationals (seconds since the epoch), Python
strings as `String` or `List Char`, Python sets as lists with membership
tests, and the asynchronous sleeps as explicit time arithmetic: a call
that sleeps `d` seconds resumes at `now + d`.  Fallible network calls are
modelled by lists of outcomes consumed one per attempt.
-/

/-! ## Configuration constants (from config.py) -/

def MAX_RETRIES : ℕ := 3

def TWEET_MAX_LENGTH : ℕ := 280

def DEFAULT_MENTION_AGE_LIMIT : ℚ := 180

def MIN_LIKES_THRESHOLD : ℕ := 25

def ACCOUNTS_TO_MONITOR : List String := ["wachmc"]

def ACCOUNTS_TO_RETWEET : List String := ["wachmc"]

/-! ## Backoff requester (TwitterClient._make_request, twitter_client.py)

Each network attempt has one outcome: a success, an HTTP 429 carrying a
rate-limit reset time, or any other failure (exception, non-2xx status,
malformed payload), which the source catches as a generic error.  The
function consumes one outcome per attempt; the trace records the total
number of attempts, the sleeps performed in order, and the final result. -/

inductive ApiOutcome where
  | success
  | rateLimited (resetTime : ℚ)
  | genericError
deriving DecidableEq

structure RequestTrace where
  attempts : ℕ
  sleeps : List ℚ
  result : Option Unit
deriving DecidableEq

def make_request (now : ℚ) (retryCount : ℕ) : List ApiOutcome → RequestTrace
  | [] => ⟨0, [], none⟩
  | o :: rest =>
    match o with
    | .success => ⟨1, [], some ()⟩
    | .rateLimited reset =>
      let sleepTime := max (reset - now) 60
      let t := make_request (now + sleepTime) 0 rest
      ⟨t.attempts + 1, sleepTime :: t.sleeps, t.result⟩
    | .genericError =>
      if retryCount < MAX_RETRIES then
        let sleepTime : ℚ := 2 ^ retryCount
        let t := make_request (now + sleepTime) (retryCount + 1) rest
        ⟨t.attempts + 1, sleepTime :: t.sleeps, t.result⟩
      else ⟨1, [], none⟩

/-! ## Task gating (TwitterBot.should_process and the in-body guards, main.py) -/

inductive BotTask where
  | mentions
  | accounts
  | hashtags
deriving DecidableEq

def check_intervals : BotTask → ℚ
  | .mentions => 180
  | .accounts => 900
  | .hashtags => 1800

def should_process (task : BotTask) (now lastTime : ℚ) : Bool :=
  !(decide (now - lastTime < check_intervals task))

def body_guard_interval : BotTask → ℚ
  | .mentions => 180
  | .accounts => 900
  | .hashtags => 900

def body_guard_passes (task : BotTask) (now lastTime : ℚ) : Bool :=
  !(decide (now - lastTime < body_guard_interval task))

def tick_runs_body (task : BotTask) (now lastTime : ℚ) : Bool :=
  should_process task now lastTime && body_guard_passes task now lastTime

/-! ## Reply truncation (AIClient.get_response tail, ai_client.py) -/

def truncate_reply (cleaned : List Char) : List Char :=
  if TWEET_MAX_LENGTH < cleaned.length then
    cleaned.take (TWEET_MAX_LENGTH - 3) ++ ['.', '.', '.']
  else cleaned

/-! ## Theorems -/

/-- Claim C2: a request whose every attempt fails with a generic error is
attempted exactly 4 times in total (1 initial + MAX_RETRIES = 3 retries),
sleeping 2 ^ attempt seconds before each retry starting at attempt 0, and
then yields no result instead of raising. -/
theorem make_request_all_generic_failures (now : ℚ) (outs : List ApiOutcome)
    (hall : ∀ o ∈ outs, o = ApiOutcome.genericError) (hlen : 4 ≤ outs.length) :
    make_request now 0 outs = ⟨4, [1, 2, 4], none⟩ := by
  match outs, hlen with
  | o1 :: o2 :: o3 :: o4 :: rest, _ =>
    have h1 := hall o1 (by simp)
    have h2 := hall o2 (by simp)
    have h3 := hall o3 (by simp)
    have h4 := hall o4 (by simp)
    subst h1; subst h2; subst h3; subst h4
    norm_num [make_request, MAX_RETRIES]

theorem make_request_all_generic_failures_witness :
    make_request 0 0 (List.replicate 4 ApiOutcome.genericError) = ⟨4, [1, 2, 4], none⟩ :=
  make_request_all_generic_failures 0 _ (by decide) (by decide)

/-- Claim C3: a request receiving a rate-limit signal carrying any reset
time sleeps exactly max(reset - now, 60) seconds, then re-attempts the
same call exactly once with the retry counter reset to 0 (independent of
the incoming retry count), so the rate-limit wait consumes none of the
bounded retry budget.  In particular a reset 90 seconds away waits the
full 90 seconds, a reset 30 seconds away waits the 60-second floor, and
in both cases a succeeding re-attempt makes the total exactly 2 attempts. -/
theorem make_request_rate_limit_wait (now reset : ℚ) (rc : ℕ) (rest : List ApiOutcome) :
    make_request now rc (ApiOutcome.rateLimited reset :: rest) =
      ⟨(make_request (now + max (reset - now) 60) 0 rest).attempts + 1,
       max (reset - now) 60 :: (make_request (now + max (reset - now) 60) 0 rest).sleeps,
       (make_request (now + max (reset - now) 60) 0 rest).result⟩ ∧
    make_request now rc [ApiOutcome.rateLimited (now + 90), ApiOutcome.success] =
      ⟨2, [90], some ()⟩ ∧
    make_request now rc [ApiOutcome.rateLimited (now + 30), ApiOutcome.success] =
      ⟨2, [60], some ()⟩ := by
  have hmax90 : max (now + 90 - now) 60 = (90 : ℚ) := by
    have h1 : now + 90 - now = (90 : ℚ) := by ring
    rw [h1, max_eq_left (by norm_num : (60 : ℚ) ≤ 90)]
  have hmax30 : max (now + 30 - now) 60 = (60 : ℚ) := by
    have h1 : now + 30 - now = (30 : ℚ) := by ring
    rw [h1, max_eq_right (by norm_num : (30 : ℚ) ≤ 60)]
  refine ⟨rfl, ?_, ?_⟩
  · simp only [make_request, hmax90]
  · simp only [make_request, hmax30]

/-- Claim C4: within a tick, the body of a task runs only when the time
since its last run is at least its minimum interval (180 s for mentions,
900 s for accounts, 900 s for hashtags); when the elapsed time is below
that interval the task is skipped for the tick.  A tick runs a body only
when both the loop gate (should_process) and the in-body guard pass. -/
theorem task_gating_min_intervals (now lastTime : ℚ) :
    (tick_runs_body BotTask.mentions now lastTime = true → 180 ≤ now - lastTime) ∧
    (now - lastTime < 180 → tick_runs_body BotTask.mentions now lastTime = false) ∧
    (tick_runs_body BotTask.accounts now lastTime = true → 900 ≤ now - lastTime) ∧
    (now - lastTime < 900 → tick_runs_body BotTask.accounts now lastTime = false) ∧
    (tick_runs_body BotTask.hashtags now lastTime = true → 900 ≤ now - lastTime) ∧
    (now - lastTime < 900 → tick_runs_body BotTask.hashtags now lastTime = false) := by
  refine ⟨fun h => ?_, fun h => ?_, fun h => ?_, fun h => ?_, fun h => ?_, fun h => ?_⟩
  · simp only [tick_runs_body, should_process, body_guard_passes, check_intervals,
      body_guard_interval, Bool.and_eq_true, Bool.not_eq_true',
      decide_eq_false_iff_not, not_lt] at h
    exact h.2
  · simp [tick_runs_body, should_process, body_guard_passes, check_intervals,
      body_guard_interval, h]
  · simp only [tick_runs_body, should_process, body_guard_passes, check_intervals,
      body_guard_interval, Bool.and_eq_true, Bool.not_eq_true',
      decide_eq_false_iff_not, not_lt] at h
    exact h.2
  · simp [tick_runs_body, should_process, body_guard_passes, check_intervals,
      body_guard_interval, h]
  · simp only [tick_runs_body, should_process, body_guard_passes, check_intervals,
      body_guard_interval, Bool.and_eq_true, Bool.not_eq_true',
      decide_eq_false_iff_not, not_lt] at h
    exact h.2
  · simp [tick_runs_body, should_process, body_guard_passes, check_intervals,
      body_guard_interval, h]

theorem task_gating_min_intervals_witness :
    (180 : ℚ) ≤ 1000 - 0 ∧ tick_runs_body BotTask.hashtags 500 0 = false :=
  ⟨(task_gating_min_intervals 1000 0).1
     (by norm_num [tick_runs_body, should_process, body_guard_passes,
        check_intervals, body_guard_interval]),
   (task_gating_min_intervals 500 0).2.2.2.2.2 (by norm_num)⟩

/-- Claim C7: a cleaned reply longer than 280 characters is truncated to
the first 277 characters followed by three dots, giving exactly 280
characters; a cleaned reply of length at most 280 is returned unchanged. -/
theorem truncate_reply_spec (s : List Char) :
    (TWEET_MAX_LENGTH < s.length →
      truncate_reply s = s.take 277 ++ ['.', '.', '.'] ∧
      (truncate_reply s).length = 280) ∧
    (s.length ≤ TWEET_MAX_LENGTH → truncate_reply s = s) := by
  constructor
  · intro h
    have hif : truncate_reply s = s.take 277 ++ ['.', '.', '.'] := by
      simp only [truncate_reply, TWEET_MAX_LENGTH] at h ⊢
      rw [if_pos h]
    refine ⟨hif, ?_⟩
    rw [hif]
    simp only [List.length_append, List.length_take, List.length_cons, List.length_nil]
    simp only [TWEET_MAX_LENGTH] at h
    omega
  · intro h
    simp only [truncate_reply, TWEET_MAX_LENGTH] at h ⊢
    rw [if_neg (by omega)]

theorem truncate_reply_spec_witness :
    (truncate_reply (List.replicate 281 'a')).length = 280 :=
  ((truncate_reply_spec _).1 (by rw [List.length_replicate]; norm_num [TWEET_MAX_LENGTH])).2

/-! ## Matched items and the mentions task (main.py, mention_processor.py)

A tweet or mention is modelled by its id and creation time; the dedup set
(TwitterBot.processed_tweets) is a list of ids with membership testing,
and the visible effects of a run are recorded as an action trace. -/

structure TweetItem where
  id : String
  created_at : ℚ
deriving DecidableEq

inductive BotAction where
  | processMention (id : String)
  | retweetTweet (id : String)
  | fetchTweets (username : String)
  | sleepFor (secs : ℚ)
deriving DecidableEq

def is_tweet_recent (now tweetTime : ℚ) (maxAgeMinutes : ℚ := 5) : Bool :=
  decide (now - tweetTime ≤ maxAgeMinutes * 60)

def get_mentions_filtered (now limitMinutes : ℚ) (fetched : List TweetItem) :
    List TweetItem :=
  fetched.filter (fun m => decide (now - m.created_at ≤ limitMinutes * 60))

def process_mentions_loop (now : ℚ) (processed : List String) :
    List TweetItem → List String × List BotAction
  | [] => (processed, [])
  | m :: rest =>
    if !(processed.contains m.id) && is_tweet_recent now m.created_at then
      let r := process_mentions_loop now (m.id :: processed) rest
      (r.1, BotAction.processMention m.id :: BotAction.sleepFor 5 :: r.2)
    else
      process_mentions_loop now processed rest

def process_mentions_run (now ageLimitMinutes lastMentionsTime : ℚ)
    (processed : List String) (fetched : List TweetItem) :
    List String × List BotAction :=
  if now - lastMentionsTime < 180 then (processed, [])
  else
    process_mentions_loop now processed
      ((get_mentions_filtered now ageLimitMinutes fetched).take 3)

def processed_ids (acts : List BotAction) : List String :=
  acts.filterMap fun a =>
    match a with
    | BotAction.processMention i => some i
    | _ => none

/-! ## Dedup-set eviction (TwitterBot.cleanup_processed_tweets, main.py)

The source keeps an entry when current_time - float(tweet_id) < 3600:
the numeric value of the tweet id itself is used as the age key.  Ids
are modelled by their numeric value. -/

def cleanup_processed_tweets (currentTime : ℚ) (processed : List ℚ) : List ℚ :=
  processed.filter (fun tweet_id => decide (currentTime - tweet_id < 3600))

/-! ## The accounts task (TwitterBot.process_accounts, main.py)

State touched by the task: the two rate limiters it acquires, the dedup
set, and its last-run timestamp.  The body is modelled at a fixed call
time now (the intra-call sleeps do not affect which state updates occur).
The rate limiter model appears below with the RateLimiter section; here
only its log matters, so acquisitions append the call time to the log. -/

structure AccountsState where
  user_tweets_log : List ℚ
  retweet_log : List ℚ
  processed_tweets : List String
  last_accounts : ℚ
deriving DecidableEq

def process_account_tweets (now : ℚ) (username : String) (st : AccountsState) :
    List TweetItem → AccountsState × List BotAction
  | [] => (st, [])
  | tw :: rest =>
    if st.processed_tweets.contains tw.id then
      process_account_tweets now username st rest
    else if tw.created_at ≤ now - 7200 then
      process_account_tweets now username st rest
    else
      let acts1 := if username ∈ ACCOUNTS_TO_MONITOR then
        [BotAction.processMention tw.id] else []
      let st1 := if username ∈ ACCOUNTS_TO_RETWEET then
        { st with retweet_log := st.retweet_log ++ [now] } else st
      let acts2 := if username ∈ ACCOUNTS_TO_RETWEET then
        [BotAction.retweetTweet tw.id] else []
      let st2 := { st1 with processed_tweets := tw.id :: st1.processed_tweets }
      let r := process_account_tweets now username st2 rest
      (r.1, acts1 ++ acts2 ++ [BotAction.sleepFor 15] ++ r.2)

def process_accounts_go (now : ℚ) (fetch : String → List TweetItem)
    (st : AccountsState) : List String → AccountsState × List BotAction
  | [] => (st, [])
  | u :: us =>
    let st1 := { st with user_tweets_log := st.user_tweets_log ++ [now] }
    let r := process_account_tweets now u st1 (fetch u)
    let r2 := process_accounts_go now fetch r.1 us
    (r2.1, BotAction.fetchTweets u :: r.2 ++ [BotAction.sleepFor 30] ++ r2.2)

def process_accounts (now : ℚ) (fetch : String → List TweetItem)
    (st : AccountsState) : AccountsState × List BotAction :=
  if now - st.last_accounts < 900 then (st, [])
  else
    let r := process_accounts_go now fetch st (ACCOUNTS_TO_MONITOR ++ ACCOUNTS_TO_RETWEET)
    ({ r.1 with last_accounts := now }, r.2)

/-! ## User-id caching (TwitterClient.get_user_id, twitter_client.py)

The cached id is an Option String (None initially); the guard is the
Python truthiness test "if self.user_id", which is false both for None
and for the empty string.  One network attempt is summarised as
Option String: some id when the response is truthy and carries a data
field with an id, none otherwise. -/

def py_truthy_str : Option String → Bool
  | none => false
  | some s => !(decide (s = ""))

structure GetUserIdResult where
  result : Option String
  user_id : Option String
  requested : Bool
deriving DecidableEq

def get_user_id (uid : Option String) (api : Option String) : GetUserIdResult :=
  if py_truthy_str uid then ⟨uid, uid, false⟩
  else
    match api with
    | some i => ⟨some i, some i, true⟩
    | none => ⟨none, uid, true⟩

def run_get_user_id (uid : Option String) : List (Option String) → List GetUserIdResult
  | [] => []
  | api :: rest =>
    let r := get_user_id uid api
    r :: run_get_user_id r.user_id rest

/-- Helper for claim C5: every id recorded by the mentions loop comes from
the mention list, was not already in the dedup set at entry, and ends up
in the dedup set; at most one id is recorded per list item; and the action
trace is exactly a processMention followed by a 5-second sleep per id. -/
theorem process_mentions_loop_spec (now : ℚ) :
    ∀ (ms : List TweetItem) (processed : List String),
      (processed_ids (process_mentions_loop now processed ms).2).length ≤ ms.length ∧
      (∀ i ∈ processed_ids (process_mentions_loop now processed ms).2,
        i ∉ processed ∧ ∃ m ∈ ms, m.id = i) ∧
      (∀ i ∈ processed_ids (process_mentions_loop now processed ms).2,
        i ∈ (process_mentions_loop now processed ms).1) ∧
      (∀ p ∈ processed, p ∈ (process_mentions_loop now processed ms).1) ∧
      (process_mentions_loop now processed ms).2 =
        (processed_ids (process_mentions_loop now processed ms).2).foldr
          (fun i acc => BotAction.processMention i :: BotAction.sleepFor 5 :: acc) [] := by
  intro ms
  induction ms with
  | nil =>
    intro processed
    simp [process_mentions_loop, processed_ids]
  | cons m rest ih =>
    intro processed
    by_cases hc : (!(processed.contains m.id) && is_tweet_recent now m.created_at) = true
    · have hrun : process_mentions_loop now processed (m :: rest) =
          ((process_mentions_loop now (m.id :: processed) rest).1,
           BotAction.processMention m.id :: BotAction.sleepFor 5 ::
             (process_mentions_loop now (m.id :: processed) rest).2) := by
        rw [process_mentions_loop, if_pos hc]
      have hnotmem : m.id ∉ processed := by
        have := (Bool.and_eq_true _ _).mp hc
        simpa using this.1
      obtain ⟨ihlen, ihsrc, ihdedup, ihmono, ihtrace⟩ := ih (m.id :: processed)
      rw [hrun]
      have hids : processed_ids (BotAction.processMention m.id :: BotAction.sleepFor 5 ::
          (process_mentions_loop now (m.id :: processed) rest).2) =
          m.id :: processed_ids (process_mentions_loop now (m.id :: processed) rest).2 := by
        simp [processed_ids]
      refine ⟨?_, ?_, ?_, ?_, ?_⟩
      · simp only [hids, List.length_cons]
        omega
      · simp only [hids]
        intro i hi
        rcases List.mem_cons.mp hi with rfl | hi
        · exact ⟨hnotmem, m, by simp, rfl⟩
        · obtain ⟨hnp, m', hm', hid⟩ := ihsrc i hi
          exact ⟨fun hmem => hnp (List.mem_cons_of_mem _ hmem), m',
            List.mem_cons_of_mem _ hm', hid⟩
      · simp only [hids]
        intro i hi
        rcases List.mem_cons.mp hi with rfl | hi
        · exact ihmono _ (List.mem_cons_self _ _)
        · exact ihdedup i hi
      · intro p hp
        exact ihmono p (List.mem_cons_of_mem _ hp)
      · simp only [hids, List.foldr_cons]
        rw [← ihtrace]
    · have hrun : process_mentions_loop now processed (m :: rest) =
          process_mentions_loop now processed rest := by
        rw [process_mentions_loop, if_neg hc]
      obtain ⟨ihlen, ihsrc, ihdedup, ihmono, ihtrace⟩ := ih processed
      rw [hrun]
      refine ⟨Nat.le_succ_of_le ihlen, ?_, ihdedup, ihmono, ihtrace⟩
      intro i hi
      obtain ⟨hnp, m', hm', hid⟩ := ihsrc i hi
      exact ⟨hnp, m', List.mem_cons_of_mem _ hm', hid⟩

/-- Claim C5: in one mentions run, every processed mention is among the
first 3 items of the fetched (age-filtered) list, its id was not already
in the dedup set, and its age is at most the configured mention-age limit;
at most 3 mentions are processed, each followed by a 5-second pause, and
every processed id is added to the dedup set. -/
theorem process_mentions_run_spec (now ageLimitMinutes lastMentionsTime : ℚ)
    (processed : List String) (fetched : List TweetItem) :
    (processed_ids (process_mentions_run now ageLimitMinutes lastMentionsTime
        processed fetched).2).length ≤ 3 ∧
    (∀ i ∈ processed_ids (process_mentions_run now ageLimitMinutes lastMentionsTime
        processed fetched).2,
      i ∉ processed ∧
      ∃ m ∈ (get_mentions_filtered now ageLimitMinutes fetched).take 3,
        m.id = i ∧ now - m.created_at ≤ ageLimitMinutes * 60) ∧
    (∀ i ∈ processed_ids (process_mentions_run now ageLimitMinutes lastMentionsTime
        processed fetched).2,
      i ∈ (process_mentions_run now ageLimitMinutes lastMentionsTime processed fetched).1) ∧
    (process_mentions_run now ageLimitMinutes lastMentionsTime processed fetched).2 =
      (processed_ids (process_mentions_run now ageLimitMinutes lastMentionsTime
        processed fetched).2).foldr
        (fun i acc => BotAction.processMention i :: BotAction.sleepFor 5 :: acc) [] := by
  by_cases hg : now - lastMentionsTime < 180
  · have hrun : process_mentions_run now ageLimitMinutes lastMentionsTime processed fetched =
        (processed, []) := by
      rw [process_mentions_run, if_pos hg]
    rw [hrun]
    simp [processed_ids]
  · have hrun : process_mentions_run now ageLimitMinutes lastMentionsTime processed fetched =
        process_mentions_loop now processed
          ((get_mentions_filtered now ageLimitMinutes fetched).take 3) := by
      rw [process_mentions_run, if_neg hg]
    obtain ⟨hlen, hsrc, hdedup, _, htrace⟩ := process_mentions_loop_spec now
      ((get_mentions_filtered now ageLimitMinutes fetched).take 3) processed
    rw [hrun]
    refine ⟨le_trans hlen (List.length_take_le _ _), ?_, hdedup, htrace⟩
    intro i hi
    obtain ⟨hnp, m, hm, hid⟩ := hsrc i hi
    have hage : now - m.created_at ≤ ageLimitMinutes * 60 := by
      have hmf : m ∈ get_mentions_filtered now ageLimitMinutes fetched :=
        (List.take_sublist _ _).mem hm
      have := List.mem_filter.mp hmf
      simpa using this.2
    exact ⟨hnp, m, hm, hid, hage⟩

theorem process_mentions_run_spec_witness :
    ("7" : String) ∉ ([] : List String) ∧
    ∃ m ∈ (get_mentions_filtered 1000 180 [⟨"7", 940⟩]).take 3,
      m.id = "7" ∧ (1000 : ℚ) - m.created_at ≤ 180 * 60 :=
  (process_mentions_run_spec 1000 180 0 [] [⟨"7", 940⟩]).2.1 "7" (by
    norm_num [process_mentions_run, process_mentions_loop, get_mentions_filtered,
      is_tweet_recent, processed_ids])

/-- Claim C6 (observed code behaviour at the failing input): the dedup
eviction keeps an entry whenever current_time - (id as a number) < 3600,
so a realistic tweet id, inserted more than an hour before this cleanup,
is still retained — the eviction key is the id value, not the insertion
time, and such an entry is never dropped. -/
theorem cleanup_eviction_failing_input :
    cleanup_processed_tweets 1700007200 [1850000000000000000] =
      [1850000000000000000] := by
  norm_num [cleanup_processed_tweets]

/-- Claim C9: calling the accounts task again within 900 seconds of its
last completed run executes none of the task body — no fetch, no
processing, no sleeps — and leaves the whole state (dedup set, both
rate-limiter logs, and the last-run timestamp) unchanged. -/
theorem process_accounts_gated_noop (now : ℚ) (fetch : String → List TweetItem)
    (st : AccountsState) (h : now - st.last_accounts < 900) :
    process_accounts now fetch st = (st, []) := by
  rw [process_accounts, if_pos h]

theorem process_accounts_gated_noop_witness :
    process_accounts 500 (fun _ => []) ⟨[], [], [], 0⟩ = (⟨[], [], [], 0⟩, []) :=
  process_accounts_gated_noop 500 _ _ (by norm_num)

/-- Claim C10 fails as stated: a call that returns the non-None but empty
id some "" does not arm the cache (the guard is Python truthiness), so the
next call issues another network request and can return a different id. -/
theorem get_user_id_cache_claim_fails :
    (get_user_id none (some "")).result = some "" ∧
    (get_user_id none (some "")).result ≠ none ∧
    (get_user_id (get_user_id none (some "")).user_id (some "1")).requested = true ∧
    (get_user_id (get_user_id none (some "")).user_id (some "1")).result ≠
      (get_user_id none (some "")).result := by
  decide

/-- Claim C10 amended: after a call returns a non-empty id, every
subsequent call returns that same id without issuing another network
request, so two calls returning non-empty ids return equal values. -/
theorem get_user_id_caches_nonempty (uid api : Option String) (s : String)
    (hres : (get_user_id uid api).result = some s) (hne : s ≠ "") :
    ∀ apis : List (Option String),
      ∀ r ∈ run_get_user_id (get_user_id uid api).user_id apis,
        r = ⟨some s, some s, false⟩ := by
  have hstate : (get_user_id uid api).user_id = some s := by
    by_cases hpy : py_truthy_str uid = true
    · unfold get_user_id at hres ⊢
      rw [if_pos hpy] at hres ⊢
      exact hres
    · unfold get_user_id at hres ⊢
      rw [if_neg hpy] at hres ⊢
      cases api with
      | none => simp at hres
      | some i => simpa using hres
  have hcall : ∀ api', get_user_id (some s) api' = ⟨some s, some s, false⟩ := by
    intro api'
    unfold get_user_id
    rw [if_pos (by simp [py_truthy_str, hne])]
  rw [hstate]
  intro apis
  induction apis with
  | nil =>
    intro r hr
    simp [run_get_user_id] at hr
  | cons api' rest ih =>
    intro r hr
    rw [run_get_user_id] at hr
    rcases List.mem_cons.mp hr with hhd | htl
    · rw [hhd, hcall api']
    · apply ih
      have : (get_user_id (some s) api').user_id = some s := by rw [hcall api']
      rwa [this] at htl

theorem get_user_id_caches_nonempty_witness :
    get_user_id (get_user_id none (some "42")).user_id (some "999") =
      ⟨some "42", some "42", false⟩ :=
  get_user_id_caches_nonempty none (some "42") "42" (by decide) (by decide)
    [some "999"] _ (List.mem_cons_self _ _)

/-! ## Response cleanup (AIClient.clean_response, ai_client.py)

Each re.sub call is embedded as one left-to-right scan: at every
position the pattern matcher tries to match a prefix; on a match the
replacement (the captured group, or nothing) is emitted and scanning
resumes after the consumed prefix, otherwise one character is emitted
and scanning moves one position right.  Every pattern of the source
requires at least one character, so a fuel of the input length is exact.
The backquote character is written with its code \x60. -/

def isPySpace (c : Char) : Bool :=
  c = ' ' || c = '\t' || c = '\n' || c = '\r' || c = '\x0b' || c = '\x0c'

def expectChar (c : Char) : List Char → Option (List Char)
  | x :: rest => if x = c then some rest else none
  | [] => none

def span1 (p : Char → Bool) (s : List Char) : Option (List Char × List Char) :=
  let tk := s.takeWhile p
  if tk.isEmpty then none else some (tk, s.dropWhile p)

def span0 (p : Char → Bool) (s : List Char) : List Char × List Char :=
  (s.takeWhile p, s.dropWhile p)

def match_footnote (s : List Char) : Option (List Char × List Char) := do
  let s1 ← expectChar '【' s
  let (_, s2) ← span1 Char.isDigit s1
  let s3 ← expectChar ':' s2
  let (_, s4) ← span1 Char.isDigit s3
  let s5 ← expectChar '†' s4
  let (_, s6) ← span1 (fun c => !(c = '】')) s5
  let s7 ← expectChar '】' s6
  pure ([], s7)

def match_bold (s : List Char) : Option (List Char × List Char) := do
  let s1 ← expectChar '*' s
  let s2 ← expectChar '*' s1
  let (grp, s3) ← span1 (fun c => !(c = '*')) s2
  let s4 ← expectChar '*' s3
  let s5 ← expectChar '*' s4
  pure (grp, s5)

def match_italic (s : List Char) : Option (List Char × List Char) := do
  let s1 ← expectChar '*' s
  let (grp, s2) ← span1 (fun c => !(c = '*')) s1
  let s3 ← expectChar '*' s2
  pure (grp, s3)

def match_numbered_list (s : List Char) : Option (List Char × List Char) := do
  let (_, s1) ← span1 Char.isDigit s
  let s2 ← expectChar '.' s1
  let (_, s3) ← span1 isPySpace s2
  pure ([], s3)

def match_bullet (s : List Char) : Option (List Char × List Char) :=
  match s with
  | c :: rest =>
    if c = '-' || c = '•' then do
      let (_, s1) ← span1 isPySpace rest
      pure ([], s1)
    else none
  | [] => none

def match_codeblock (s : List Char) : Option (List Char × List Char) := do
  let s1 ← expectChar '\x60' s
  let s2 ← expectChar '\x60' s1
  let s3 ← expectChar '\x60' s2
  let (_, s4) := span0 (fun c => !(c = '\x60')) s3
  let s5 ← expectChar '\x60' s4
  let s6 ← expectChar '\x60' s5
  let s7 ← expectChar '\x60' s6
  pure ([], s7)

def match_inline_code (s : List Char) : Option (List Char × List Char) := do
  let s1 ← expectChar '\x60' s
  let (grp, s2) ← span1 (fun c => !(c = '\x60')) s1
  let s3 ← expectChar '\x60' s2
  pure (grp, s3)

def match_heading (s : List Char) : Option (List Char × List Char) := do
  let (_, s1) ← span1 (fun c => c = '#') s
  let (_, s2) ← span1 isPySpace s1
  pure ([], s2)

def match_link (s : List Char) : Option (List Char × List Char) := do
  let s1 ← expectChar '[' s
  let (grp, s2) ← span1 (fun c => !(c = ']')) s1
  let s3 ← expectChar ']' s2
  let s4 ← expectChar '(' s3
  let (_, s5) ← span1 (fun c => !(c = ')')) s4
  let s6 ← expectChar ')' s5
  pure (grp, s6)

def match_blockquote (s : List Char) : Option (List Char × List Char) := do
  let s1 ← expectChar '>' s
  let (_, s2) ← span1 isPySpace s1
  pure ([], s2)

def match_whitespace (s : List Char) : Option (List Char × List Char) := do
  let (_, s1) ← span1 isPySpace s
  pure ([' '], s1)

def regex_sub (step : List Char → Option (List Char × List Char)) :
    ℕ → List Char → List Char
  | 0, s => s
  | _ + 1, [] => []
  | fuel + 1, c :: cs =>
    match step (c :: cs) with
    | some (repl, rest) => repl ++ regex_sub step fuel rest
    | none => c :: regex_sub step fuel cs

def apply_sub (step : List Char → Option (List Char × List Char))
    (s : List Char) : List Char :=
  regex_sub step s.length s

def py_strip (s : List Char) : List Char :=
  ((s.dropWhile isPySpace).reverse.dropWhile isPySpace).reverse

def clean_response (text : List Char) : List Char :=
  if text.isEmpty then []
  else
    py_strip (apply_sub match_whitespace
      (apply_sub match_blockquote
        (apply_sub match_link
          (apply_sub match_heading
            (apply_sub match_inline_code
              (apply_sub match_codeblock
                (apply_sub match_bullet
                  (apply_sub match_numbered_list
                    (apply_sub match_italic
                      (apply_sub match_bold
                        (apply_sub match_footnote text)))))))))))

/-- Claim C8: clean_response applied to the string with bold markup, a
citation marker and a markdown link returns exactly "Hi there link":
the citation is removed, bold and link markup are stripped to their
inner text, and whitespace is collapsed with the result trimmed. -/
theorem clean_response_example :
    clean_response ("**Hi** there【4:0†note.txt】 [link](http://x)".toList) =
      "Hi there link".toList := by
  decide

/-! ## Sliding-window rate limiter (RateLimiter, main.py)

The deque of admitted timestamps is a list, oldest first.  acquire is
split along the source lines: the prune loop (popleft while the oldest
entry is at or before now - window), the conditional wait (when the
pruned log has reached capacity, sleep until the oldest entry leaves the
window), and the append of the admission time.  The caller is
sequential: each call happens at the previous admission time plus a
nonnegative delay, and a sleeping call resumes exactly when its wait
elapses. -/

structure RateLimiter where
  requests_per_window : ℕ
  window_seconds : ℚ
  requests : List ℚ

def pruneRequests (windowSeconds now : ℚ) (requests : List ℚ) : List ℚ :=
  requests.dropWhile (fun ts => decide (ts ≤ now - windowSeconds))

def admissionTime (cap : ℕ) (windowSeconds now : ℚ) (pruned : List ℚ) : ℚ :=
  if cap ≤ pruned.length then
    match pruned.head? with
    | some t0 => if 0 < t0 + windowSeconds - now then t0 + windowSeconds else now
    | none => now
  else now

def RateLimiter.acquire (rl : RateLimiter) (now : ℚ) : RateLimiter × ℚ :=
  let pruned := pruneRequests rl.window_seconds now rl.requests
  let t := admissionTime rl.requests_per_window rl.window_seconds now pruned
  ({ rl with requests := pruned ++ [t] }, t)

def runAcquires (rl : RateLimiter) (tlast : ℚ) : List ℚ → List ℚ
  | [] => []
  | d :: ds =>
    (rl.acquire (tlast + d)).2 ::
      runAcquires (rl.acquire (tlast + d)).1 (rl.acquire (tlast + d)).2 ds

theorem now_le_admissionTime (cap : ℕ) (w now : ℚ) (pruned : List ℚ) :
    now ≤ admissionTime cap w now pruned := by
  unfold admissionTime
  by_cases hb : cap ≤ pruned.length
  · rw [if_pos hb]
    cases hh : pruned.head? with
    | none => exact le_refl now
    | some t0 =>
      dsimp only
      by_cases hw : 0 < t0 + w - now
      · rw [if_pos hw]; linarith
      · rw [if_neg hw]
  · rw [if_neg hb]

theorem head_add_le_admissionTime (cap : ℕ) (w now : ℚ) (pruned : List ℚ)
    (hb : cap ≤ pruned.length) (t0 : ℚ) (hh : pruned.head? = some t0) :
    t0 + w ≤ admissionTime cap w now pruned := by
  unfold admissionTime
  rw [if_pos hb, hh]
  dsimp only
  by_cases hw : 0 < t0 + w - now
  · rw [if_pos hw]
  · rw [if_neg hw]; linarith

/-- Minimum spacing of admitted events, stated on the reversed history
(newest admission first): in any c + 1 admissions the oldest happened at
least a full window before the newest. -/
def Spaced (c : ℕ) (w : ℚ) (rh : List ℚ) : Prop :=
  ∀ (l : List ℚ) (x y : ℚ), l.Sublist rh → c < l.length →
    l.head? = some x → l.getLast? = some y → y + w ≤ x

theorem sublist_getLast_index {α : Type} {r rh : List α} (h : r.Sublist rh) :
    ∀ y, r.getLast? = some y → ∃ i, rh[i]? = some y ∧ r.length ≤ i + 1 := by
  induction h with
  | slnil =>
    intro y hy
    simp at hy
  | cons a _h ih =>
    intro y hy
    obtain ⟨i, hget, hlen⟩ := ih y hy
    exact ⟨i + 1, by simpa using hget, by omega⟩
  | @cons₂ l₁ l₂ a _h ih =>
    intro y hy
    cases hl : l₁ with
    | nil =>
      subst hl
      simp at hy
      exact ⟨0, by simp [hy], by simp⟩
    | cons b t =>
      subst hl
      rw [List.getLast?_cons_cons] at hy
      obtain ⟨i, hget, hlen⟩ := ih y hy
      exact ⟨i + 1, by simpa using hget, by simpa using Nat.succ_le_succ hlen⟩

theorem pairwise_ge_index_le {rh : List ℚ} (hs : rh.Pairwise (fun a b => b ≤ a))
    {i j : ℕ} {y : ℚ} (hij : i ≤ j) (hj : rh[j]? = some y) :
    ∃ z, rh[i]? = some z ∧ y ≤ z := by
  obtain ⟨hjl, hgetj⟩ := List.getElem?_eq_some_iff.mp hj
  have hil : i < rh.length := lt_of_le_of_lt hij hjl
  refine ⟨rh[i], List.getElem?_eq_getElem hil, ?_⟩
  rcases eq_or_lt_of_le hij with rfl | hlt
  · rw [hgetj]
  · have := List.pairwise_iff_get.mp hs ⟨i, hil⟩ ⟨j, hjl⟩ hlt
    simpa [hgetj] using this

/-- Invariant tying the limiter state to the reversed admission history
rh and the time tlast at which the previous call returned. -/
structure RLInv (c : ℕ) (w : ℚ) (rl : RateLimiter) (rh : List ℚ) (tlast : ℚ) : Prop where
  cap_eq : rl.requests_per_window = c
  win_eq : rl.window_seconds = w
  split : ∃ dropped, rh = rl.requests.reverse ++ dropped ∧ ∀ x ∈ dropped, x ≤ tlast - w
  sorted : rh.Pairwise (fun a b => b ≤ a)
  ub : ∀ x ∈ rh, x ≤ tlast
  len_le : rl.requests.length ≤ c + 1
  full_head : rl.requests.length = c + 1 →
    ∀ x, rl.requests.head? = some x → x + w ≤ tlast
  spaced : Spaced c w rh

theorem acquire_requests_eq (rl : RateLimiter) (now : ℚ) :
    (rl.acquire now).1.requests =
      pruneRequests rl.window_seconds now rl.requests ++ [(rl.acquire now).2] := rfl

theorem acquire_snd_eq (rl : RateLimiter) (now : ℚ) :
    (rl.acquire now).2 =
      admissionTime rl.requests_per_window rl.window_seconds now
        (pruneRequests rl.window_seconds now rl.requests) := rfl

theorem pruned_split (c : ℕ) (w : ℚ) (rl : RateLimiter) (rh : List ℚ)
    (tlast now : ℚ) (inv : RLInv c w rl rh tlast) (hnow : tlast ≤ now) :
    ∃ D, rh = (pruneRequests w now rl.requests).reverse ++ D ∧
      ∀ x ∈ D, x ≤ now - w := by
  obtain ⟨dropped, hsplit, hdrop⟩ := inv.split
  refine ⟨(rl.requests.takeWhile fun ts => decide (ts ≤ now - w)).reverse ++ dropped,
    ?_, ?_⟩
  · have hpr : pruneRequests w now rl.requests =
        rl.requests.dropWhile (fun ts => decide (ts ≤ now - w)) := rfl
    rw [hsplit, hpr, ← List.append_assoc, ← List.reverse_append,
      List.takeWhile_append_dropWhile]
  · intro x hx
    rcases List.mem_append.mp hx with hx | hx
    · have hxx := List.mem_takeWhile_imp (List.mem_reverse.mp hx)
      simpa using hxx
    · have := hdrop x hx
      linarith

theorem pruned_length_le (c : ℕ) (w : ℚ) (rl : RateLimiter) (rh : List ℚ)
    (tlast now : ℚ) (inv : RLInv c w rl rh tlast) (hnow : tlast ≤ now) :
    (pruneRequests w now rl.requests).length ≤ c := by
  have hdw : (pruneRequests w now rl.requests).length ≤ rl.requests.length :=
    (List.dropWhile_sublist _).length_le
  rcases Nat.lt_or_ge rl.requests.length (c + 1) with hlt | hge
  · omega
  · have hlen : rl.requests.length = c + 1 := le_antisymm inv.len_le hge
    obtain ⟨x0, tail, hx⟩ : ∃ x0 tail, rl.requests = x0 :: tail := by
      cases hr : rl.requests with
      | nil => rw [hr] at hlen; simp at hlen
      | cons a tl => exact ⟨a, tl, rfl⟩
    have hx0 : x0 + w ≤ tlast := inv.full_head hlen x0 (by rw [hx]; rfl)
    have hp : (decide (x0 ≤ now - w)) = true := decide_eq_true (by linarith)
    have hrw : pruneRequests w now rl.requests =
        tail.dropWhile (fun ts => decide (ts ≤ now - w)) := by
      unfold pruneRequests
      rw [hx, List.dropWhile_cons]
      simp [hp]
    have htl : (tail.dropWhile fun ts => decide (ts ≤ now - w)).length ≤ tail.length :=
      (List.dropWhile_sublist _).length_le
    have htail : tail.length = c := by rw [hx] at hlen; simpa using hlen
    rw [hrw]
    omega

theorem admission_spacing (c : ℕ) (w : ℚ) (rl : RateLimiter) (rh : List ℚ)
    (tlast now : ℚ) (inv : RLInv c w rl rh tlast) (hc : 0 < c) (hnow : tlast ≤ now) :
    ∀ z, rh[c - 1]? = some z → z + w ≤ (rl.acquire now).2 := by
  intro z hz
  obtain ⟨D, hrh, hD⟩ := pruned_split c w rl rh tlast now inv hnow
  have hsnd : (rl.acquire now).2 =
      admissionTime c w now (pruneRequests w now rl.requests) := by
    rw [acquire_snd_eq, inv.cap_eq, inv.win_eq]
  have hple : (pruneRequests w now rl.requests).length ≤ c :=
    pruned_length_le c w rl rh tlast now inv hnow
  by_cases hb : c ≤ (pruneRequests w now rl.requests).length
  · have hpc : (pruneRequests w now rl.requests).length = c := le_antisymm hple hb
    obtain ⟨t0, ptail, hp0⟩ :
        ∃ t0 ptail, pruneRequests w now rl.requests = t0 :: ptail := by
      cases hp : pruneRequests w now rl.requests with
      | nil => rw [hp] at hpc; simp at hpc; omega
      | cons a tl => exact ⟨a, tl, rfl⟩
    have hrev : (pruneRequests w now rl.requests).reverse[c - 1]? = some t0 := by
      rw [List.getElem?_reverse (by rw [hpc]; omega)]
      rw [hpc]
      have hzero : c - 1 - (c - 1) = 0 := by omega
      rw [hzero, hp0]
      simp
    have hz' : z = t0 := by
      rw [hrh, List.getElem?_append_left
        (by rw [List.length_reverse, hpc]; omega)] at hz
      rw [hrev] at hz
      exact (Option.some_inj.mp hz).symm
    rw [hsnd, hz']
    exact head_add_le_admissionTime c w now _ hb t0 (by rw [hp0]; rfl)
  · have ht : (rl.acquire now).2 = now := by
      rw [hsnd]; unfold admissionTime; rw [if_neg hb]
    have hge : (pruneRequests w now rl.requests).reverse.length ≤ c - 1 := by
      rw [List.length_reverse]; omega
    rw [hrh, List.getElem?_append_right hge] at hz
    have hzmem : z ∈ D := List.getElem?_mem hz
    have := hD z hzmem
    rw [ht]; linarith

theorem acquire_step (c : ℕ) (w : ℚ) (rl : RateLimiter) (rh : List ℚ)
    (tlast now : ℚ) (inv : RLInv c w rl rh tlast) (hc : 0 < c) (hnow : tlast ≤ now) :
    now ≤ (rl.acquire now).2 ∧
    RLInv c w (rl.acquire now).1 ((rl.acquire now).2 :: rh) (rl.acquire now).2 := by
  obtain ⟨D, hrh, hD⟩ := pruned_split c w rl rh tlast now inv hnow
  have hsnd : (rl.acquire now).2 =
      admissionTime c w now (pruneRequests w now rl.requests) := by
    rw [acquire_snd_eq, inv.cap_eq, inv.win_eq]
  have hreq : (rl.acquire now).1.requests =
      pruneRequests w now rl.requests ++ [(rl.acquire now).2] := by
    rw [acquire_requests_eq, inv.win_eq]
  have hle : now ≤ (rl.acquire now).2 := by
    rw [hsnd]; exact now_le_admissionTime c w now _
  have hple : (pruneRequests w now rl.requests).length ≤ c :=
    pruned_length_le c w rl rh tlast now inv hnow
  have htlastle : tlast ≤ (rl.acquire now).2 := le_trans hnow hle
  refine ⟨hle, ?_⟩
  refine ⟨inv.cap_eq, inv.win_eq, ?_, ?_, ?_, ?_, ?_, ?_⟩
  · refine ⟨D, ?_, ?_⟩
    · rw [hreq, List.reverse_append, hrh]
      simp
    · intro x hx
      have := hD x hx
      linarith
  · exact List.pairwise_cons.mpr
      ⟨fun x hx => le_trans (inv.ub x hx) htlastle, inv.sorted⟩
  · intro x hx
    rcases List.mem_cons.mp hx with rfl | hx
    · exact le_refl _
    · exact le_trans (inv.ub x hx) htlastle
  · rw [hreq]
    simp only [List.length_append, List.length_cons, List.length_nil]
    omega
  · intro hlen x hx
    rw [hreq] at hlen hx
    have hpc : (pruneRequests w now rl.requests).length = c := by
      simp only [List.length_append, List.length_cons, List.length_nil] at hlen
      omega
    obtain ⟨t0, ptail, hp0⟩ :
        ∃ t0 ptail, pruneRequests w now rl.requests = t0 :: ptail := by
      cases hp : pruneRequests w now rl.requests with
      | nil => rw [hp] at hpc; simp at hpc; omega
      | cons a tl => exact ⟨a, tl, rfl⟩
    have hx' : x = t0 := by
      rw [hp0] at hx
      exact (by simpa using hx : t0 = x).symm
    rw [hx', hsnd]
    exact head_add_le_admissionTime c w now _ (by omega) t0 (by rw [hp0]; rfl)
  · intro l x y hsub hlen hx hy
    cases hsub with
    | cons _ h =>
      exact inv.spaced l x y h hlen hx hy
    | @cons₂ _ _ _ h =>
      rename_i r
      have hx' : x = (rl.acquire now).2 :=
        (by simpa using hx : (rl.acquire now).2 = x).symm
      have hrlen : c ≤ r.length := by
        simp only [List.length_cons] at hlen
        omega
      cases hr : r with
      | nil =>
        rw [hr] at hrlen
        simp at hrlen
        omega
      | cons b rs =>
        subst hr
        rw [List.getLast?_cons_cons] at hy
        obtain ⟨j, hj, hjlen⟩ := sublist_getLast_index h y hy
        have hcj : c - 1 ≤ j := by
          simp only [List.length_cons] at hjlen hrlen
          omega
        obtain ⟨z, hz, hyz⟩ := pairwise_ge_index_le inv.sorted hcj hj
        have hzt := admission_spacing c w rl rh tlast now inv hc hnow z hz
        rw [hx']
        linarith

theorem runAcquires_spaced (c : ℕ) (w : ℚ) (hc : 0 < c) :
    ∀ (ds : List ℚ) (rl : RateLimiter) (rh : List ℚ) (tlast : ℚ),
      RLInv c w rl rh tlast → (∀ d ∈ ds, 0 ≤ d) →
      Spaced c w ((runAcquires rl tlast ds).reverse ++ rh) := by
  intro ds
  induction ds with
  | nil =>
    intro rl rh tlast inv _
    simpa [runAcquires] using inv.spaced
  | cons d ds ih =>
    intro rl rh tlast inv hds
    have hd : (0 : ℚ) ≤ d := hds d (List.mem_cons_self _ _)
    have hnow : tlast ≤ tlast + d := by linarith
    obtain ⟨_, inv'⟩ := acquire_step c w rl rh tlast (tlast + d) inv hc hnow
    have ih' := ih (rl.acquire (tlast + d)).1 ((rl.acquire (tlast + d)).2 :: rh)
      (rl.acquire (tlast + d)).2 inv' (fun d' hd' => hds d' (List.mem_cons_of_mem _ hd'))
    have heq : (runAcquires rl tlast (d :: ds)).reverse ++ rh =
        (runAcquires (rl.acquire (tlast + d)).1 (rl.acquire (tlast + d)).2 ds).reverse ++
          ((rl.acquire (tlast + d)).2 :: rh) := by
      rw [runAcquires, List.reverse_cons, List.append_assoc]
      rfl
    rw [heq]
    exact ih'

theorem spaced_window_count (c : ℕ) (w a : ℚ) (l : List ℚ) (hs : Spaced c w l) :
    (l.filter (fun t => decide (a < t) && decide (t ≤ a + w))).length ≤ c := by
  by_contra hlt
  push_neg at hlt
  have hf : (l.filter (fun t => decide (a < t) && decide (t ≤ a + w))).Sublist l :=
    List.filter_sublist l
  have hg : ((l.filter (fun t => decide (a < t) && decide (t ≤ a + w))).take
      (c + 1)).Sublist l :=
    (List.take_sublist _ _).trans hf
  have hglen : ((l.filter (fun t => decide (a < t) && decide (t ≤ a + w))).take
      (c + 1)).length = c + 1 := by
    rw [List.length_take]
    omega
  have hgne : (l.filter (fun t => decide (a < t) && decide (t ≤ a + w))).take
      (c + 1) ≠ [] := by
    intro hnil
    rw [hnil] at hglen
    simp at hglen
  have hhead := List.head?_eq_head hgne
  have hlast := List.getLast?_eq_getLast _ hgne
  have hspan := hs _ _ _ hg (by omega) hhead hlast
  have hxmem : (((l.filter (fun t => decide (a < t) && decide (t ≤ a + w))).take
      (c + 1)).head hgne) ∈ l.filter (fun t => decide (a < t) && decide (t ≤ a + w)) :=
    (List.take_sublist _ _).mem (List.head_mem hgne)
  have hymem : (((l.filter (fun t => decide (a < t) && decide (t ≤ a + w))).take
      (c + 1)).getLast hgne) ∈ l.filter (fun t => decide (a < t) && decide (t ≤ a + w)) :=
    (List.take_sublist _ _).mem (List.getLast_mem hgne)
  have hx := (List.mem_filter.mp hxmem).2
  have hy := (List.mem_filter.mp hymem).2
  simp only [Bool.and_eq_true, decide_eq_true_eq] at hx hy
  linarith [hspan, hx.1, hx.2, hy.1, hy.2]

/-- Claim C1: for every sequence of sequential acquire calls on a
RateLimiter with capacity c > 0 and window w > 0 — each call made at the
previous admission time plus a nonnegative delay, each sleeping call
resuming when its wait elapses — no trailing window of length w (the
half-open interval from a exclusive to a + w inclusive, the window shape
the pruning step itself uses) contains more than c admitted events. -/
theorem rate_limiter_window_bound (c : ℕ) (w : ℚ) (hc : 0 < c) (hw : 0 < w)
    (start : ℚ) (ds : List ℚ) (hds : ∀ d ∈ ds, 0 ≤ d) (a : ℚ) :
    ((runAcquires ⟨c, w, []⟩ start ds).filter
      (fun t => decide (a < t) && decide (t ≤ a + w))).length ≤ c := by
  have inv0 : RLInv c w ⟨c, w, []⟩ [] start := by
    refine ⟨rfl, rfl, ⟨[], by simp, by simp⟩, List.Pairwise.nil, by simp, by simp, ?_, ?_⟩
    · intro h
      simp at h
    · intro l x y hsub hlen _ _
      have hl0 : l.length = 0 := by simpa using hsub.length_le
      omega
  have hsp := runAcquires_spaced c w hc ds ⟨c, w, []⟩ [] start inv0 hds
  rw [List.append_nil] at hsp
  have hcount := spaced_window_count c w a _ hsp
  rwa [List.filter_reverse, List.length_reverse] at hcount

theorem rate_limiter_window_bound_witness :
    ((runAcquires ⟨1, 1, []⟩ 0 [0, 0]).filter
      (fun t => decide ((0 : ℚ) < t) && decide (t ≤ 0 + 1))).length ≤ 1 :=
  rate_limiter_window_bound 1 1 (by norm_num) (by norm_num) 0 [0, 0] (by norm_num) 0
